import Mathlib

/-!
Shallow embedding of the recipe-costing module (utils.ts): data model,
cost selection, nutrient aggregation and recipe summarization.

JS numbers are modelled as rationals (ℚ); the `Infinity` sentinel used
while scanning offers is modelled by `Option` (`none` = no offer seen yet,
standing for an infinite lowest cost).  The external collaborators
(`GetProductsForIngredient`, `GetBaseUoM`, `ConvertUnits`,
`GetCostPerBaseUnit`, `GetNutrientFactInBaseUnits`) are fields of an
environment record `Env`, left abstract.  A JS object used as a
string-keyed map is modelled as an association list in insertion order,
with JS property semantics: lookup finds the (unique) key, assignment
updates in place or appends.
-/

namespace MenuWise

/-- `UnitOfMeasure` from the data model: dimension tag, unit name, amount. -/
structure UnitOfMeasure where
  uomName : String
  uomType : String
  uomAmount : ℚ
deriving DecidableEq, Repr

/-- `NutrientFact`: a named nutrient quantity. -/
structure NutrientFact where
  nutrientName : String
  quantityAmount : UnitOfMeasure
deriving DecidableEq, Repr

/-- `SupplierProduct`: an offer; its contents are only ever consumed by the
external helper `GetCostPerBaseUnit`, so an opaque identifier suffices. -/
structure SupplierProduct where
  id : String
deriving DecidableEq, Repr

/-- `Product`: supplier offers plus nutrient facts. -/
structure Product where
  productName : String
  supplierProducts : List SupplierProduct
  nutrientFacts : List NutrientFact
deriving DecidableEq, Repr

/-- `RecipeLineItem`: one ingredient requirement of a recipe. -/
structure RecipeLineItem where
  ingredient : String
  unitOfMeasure : UnitOfMeasure
deriving DecidableEq, Repr

/-- `Recipe`: named, ordered list of line items. -/
structure Recipe where
  recipeName : String
  lineItems : List RecipeLineItem
deriving DecidableEq, Repr

/-- The error thrown by `findLowestCostProduct`
("No products available for the given ingredient."). -/
inductive RecipeError where
  | noCandidates
deriving DecidableEq, Repr

/-- The external collaborators consumed by the module (data access and
unit-conversion helpers), abstracted as an environment. -/
structure Env where
  getProductsForIngredient : String → List Product
  getBaseUoM : String → UnitOfMeasure
  convertUnits : UnitOfMeasure → String → String → UnitOfMeasure
  getCostPerBaseUnit : SupplierProduct → ℚ
  getNutrientFactInBaseUnits : NutrientFact → NutrientFact

/-- A JS object keyed by nutrient name, in insertion order. -/
abbrev NutrientMap := List (String × NutrientFact)

/-- JS property read `m[k]` (keys are unique in a JS object, so the first
match is the match). -/
def findEntry : NutrientMap → String → Option NutrientFact
  | [], _ => none
  | (k', v) :: rest, k => if k' = k then some v else findEntry rest k

/-- Add `q` to the `uomAmount` of a stored nutrient fact (the `+=` on
`quantityAmount.uomAmount`). -/
def updAmount (q : ℚ) (f : NutrientFact) : NutrientFact :=
  { f with quantityAmount := { f.quantityAmount with uomAmount := f.quantityAmount.uomAmount + q } }

/-- In-place update `m[k].quantityAmount.uomAmount += q` on the entry at
key `k` (position preserved). -/
def addToEntry (m : NutrientMap) (k : String) (q : ℚ) : NutrientMap :=
  m.map fun kv => if kv.1 = k then (kv.1, updAmount q kv.2) else kv

/-- JS property write `m[k] = v`: overwrite in place if present, else append. -/
def objAssign (m : NutrientMap) (k : String) (v : NutrientFact) : NutrientMap :=
  if (findEntry m k).isSome then
    m.map fun kv => if kv.1 = k then (k, v) else kv
  else m ++ [(k, v)]

/-- `calculateRealCost(realUoM, basePrice)` from utils.ts. -/
def calculateRealCost (env : Env) (realUoM : UnitOfMeasure) (basePrice : ℚ) : ℚ :=
  let baseUnitOfMeasure := env.getBaseUoM realUoM.uomType
  let convertedUoM := env.convertUnits realUoM baseUnitOfMeasure.uomName baseUnitOfMeasure.uomType
  basePrice * convertedUoM.uomAmount

/-- `findLowestCostProduct(lineItem)` from utils.ts: nested loops over the
candidate products and their supplier offers, tracking the strictly
smallest real cost seen (`none` plays the role of
`lowestCost = Infinity`, `lowestCostProduct = null`); throws when no
offer was seen. -/
def findLowestCostProduct (env : Env) (lineItem : RecipeLineItem) :
    Except RecipeError (Product × ℚ) :=
  let products := env.getProductsForIngredient lineItem.ingredient
  let best := products.foldl (fun acc product =>
    product.supplierProducts.foldl (fun acc' supplierProduct =>
      let baseCost := env.getCostPerBaseUnit supplierProduct
      let realCost := calculateRealCost env lineItem.unitOfMeasure baseCost
      match acc' with
      | none => some (product, realCost)
      | some (p, lowest) =>
          if realCost < lowest then some (product, realCost) else some (p, lowest)) acc) none
  match best with
  | none => Except.error RecipeError.noCandidates
  | some pc => Except.ok pc

/-- One step of `aggregateNutrients`: the body of the `forEach` in utils.ts.
Note the lookup and the insertion both use the incoming fact's original
`fact.nutrientName`, while the converted `baseUnitFact` is what gets
stored / whose amount gets added. -/
def mergeFact (env : Env) (m : NutrientMap) (fact : NutrientFact) : NutrientMap :=
  let baseUnitFact := env.getNutrientFactInBaseUnits fact
  if (findEntry m fact.nutrientName).isSome then
    addToEntry m fact.nutrientName baseUnitFact.quantityAmount.uomAmount
  else
    m ++ [(fact.nutrientName, baseUnitFact)]

/-- `aggregateNutrients(existingNutrientFacts, newNutrientFacts)` from
utils.ts (the mutation of the map is modelled by returning the updated map). -/
def aggregateNutrients (env : Env) (m : NutrientMap) (newNutrientFacts : List NutrientFact) :
    NutrientMap :=
  newNutrientFacts.foldl (mergeFact env) m

/-- The body of the `reduce` in `sortKeys`: `result[key] = object[key]`
(reading a key that `Object.keys` produced always succeeds, so the `none`
branch is unreachable there). -/
def rebuildStep (m : NutrientMap) (result : NutrientMap) (key : String) : NutrientMap :=
  match findEntry m key with
  | some v => objAssign result key v
  | none => result

/-- `sortKeys(object)` from utils.ts: `Object.keys(object).sort()` then
rebuild by assigning each key's value into a fresh object.  JS's `.sort()`
is modelled by insertion sort: on the distinct keys of an object the
ascending ordering is unique, so any correct sort computes it. -/
def sortKeys (m : NutrientMap) : NutrientMap :=
  (List.insertionSort (· ≤ ·) (m.map Prod.fst)).foldl (rebuildStep m) []

/-- The output record of `summarizeRecipe`. -/
structure RecipeSummary where
  cheapestCost : ℚ
  nutrientsAtCheapestCost : NutrientMap
deriving DecidableEq, Repr

/-- The body of the `forEach` in `summarizeRecipe`: select the cheapest
product for the line item, add its cost, merge its nutrient facts. -/
def summarizeStep (env : Env) (acc : ℚ × NutrientMap) (lineItem : RecipeLineItem) :
    Except RecipeError (ℚ × NutrientMap) := do
  let pc ← findLowestCostProduct env lineItem
  pure (acc.1 + pc.2, aggregateNutrients env acc.2 pc.1.nutrientFacts)

/-- `summarizeRecipe(recipe)` from utils.ts.  A throw inside the `forEach`
aborts the whole summarization, which the `Except` monad models. -/
def summarizeRecipe (env : Env) (recipe : Recipe) : Except RecipeError RecipeSummary := do
  let acc ← recipe.lineItems.foldlM (summarizeStep env) (0, [])
  pure ⟨acc.1, sortKeys acc.2⟩

/-! Derived notions used to state and prove the properties. -/

/-- The normalized real cost of one (product, supplier offer) pair for a
line item, exactly as computed inside the scanning loop. -/
def offerCost (env : Env) (lineItem : RecipeLineItem) (x : Product × SupplierProduct) : ℚ :=
  calculateRealCost env lineItem.unitOfMeasure (env.getCostPerBaseUnit x.2)

/-- All (product, supplier offer) pairs of a product list, in iteration
order: products in catalog order, then each product's offers in order. -/
def offerPairsOf (products : List Product) : List (Product × SupplierProduct) :=
  products.flatMap fun p => p.supplierProducts.map fun sp => (p, sp)

/-- All offers considered by `findLowestCostProduct` for a line item, in
iteration order. -/
def offerPairs (env : Env) (lineItem : RecipeLineItem) : List (Product × SupplierProduct) :=
  offerPairsOf (env.getProductsForIngredient lineItem.ingredient)

/-- One comparison step of the scan, on a current best that is already
present (`lowestCost` finite). -/
def nextBest (env : Env) (lineItem : RecipeLineItem) (b : Product × ℚ)
    (x : Product × SupplierProduct) : Product × ℚ :=
  if offerCost env lineItem x < b.2 then (x.1, offerCost env lineItem x) else b

/-- One step of the scan on the optional current best (`none` stands for
`lowestCost = Infinity`). -/
def offerStep (env : Env) (lineItem : RecipeLineItem) (acc : Option (Product × ℚ))
    (x : Product × SupplierProduct) : Option (Product × ℚ) :=
  match acc with
  | none => some (x.1, offerCost env lineItem x)
  | some b => some (nextBest env lineItem b x)

/-- The amount stored in the running nutrient map under key `k`, if any. -/
def amountAt (m : NutrientMap) (k : String) : Option ℚ :=
  (findEntry m k).map fun f => f.quantityAmount.uomAmount

/-- The base-unit amount an incoming fact contributes. -/
def baseAmount (env : Env) (f : NutrientFact) : ℚ :=
  (env.getNutrientFactInBaseUnits f).quantityAmount.uomAmount

/-- Total base-unit amount contributed to key `k` by a list of incoming
facts (keyed, as the code does, by the original `nutrientName`). -/
def keyAmount (env : Env) (l : List NutrientFact) (k : String) : ℚ :=
  ((l.filter fun f => f.nutrientName = k).map (baseAmount env)).sum

/-- Some incoming fact of the list carries (original) name `k`. -/
abbrev hasKeyFact (l : List NutrientFact) (k : String) : Prop :=
  ∃ f ∈ l, f.nutrientName = k

/-- Every key of the map is the `nutrientName` of the fact stored under it. -/
abbrev KeysMatch (m : NutrientMap) : Prop :=
  ∀ kv ∈ m, kv.2.nutrientName = kv.1

/-! Concrete data used to instantiate the theorems. -/

/-- A nutrient fact used by the concrete instances. -/
def fFiber : NutrientFact := ⟨"Fiber", ⟨"g", "mass", 3⟩⟩

/-- A single product with one supplier offer and one nutrient fact. -/
def pW : Product := ⟨"prodW", [⟨"supW"⟩], [fFiber]⟩

/-- A line item asking for 1 base unit of ingredient "flour". -/
def liW : RecipeLineItem := ⟨"flour", ⟨"g", "mass", 1⟩⟩

/-- A line item for ingredient "unobtainium", for which no products exist. -/
def liE : RecipeLineItem := ⟨"unobtainium", ⟨"g", "mass", 1⟩⟩

/-- A concrete environment: "flour" has the single product `pW` at
cost-per-base-unit 2, unit conversion is the identity, nutrient facts are
already in base units. -/
def envW : Env :=
  { getProductsForIngredient := fun i => if i = "flour" then [pW] else []
    getBaseUoM := fun t => ⟨"g", t, 1⟩
    convertUnits := fun u _ _ => u
    getCostPerBaseUnit := fun _ => 2
    getNutrientFactInBaseUnits := fun f => f }

/-- A recipe with the single line item `liW`. -/
def recipeW : Recipe := ⟨"recipeW", [liW]⟩

/-- A recipe whose only line item has no candidate products. -/
def recipeE : Recipe := ⟨"recipeE", [liE]⟩

/-- An environment whose base-unit conversion renames nutrient "A" to "B"
(name preservation is not guaranteed for the abstract helper). -/
def envR : Env :=
  { getProductsForIngredient := fun _ => []
    getBaseUoM := fun t => ⟨"g", t, 1⟩
    convertUnits := fun u _ _ => u
    getCostPerBaseUnit := fun _ => 0
    getNutrientFactInBaseUnits := fun f =>
      if f.nutrientName = "A" then { f with nutrientName := "B" } else f }

/-- An incoming fact named "A" (renamed to "B" by `envR`'s conversion). -/
def factA : NutrientFact := ⟨"A", ⟨"g", "mass", 1⟩⟩

/-- A stored fact named "B". -/
def factB : NutrientFact := ⟨"B", ⟨"g", "mass", 5⟩⟩

/-- A running nutrient map holding an entry for "B" only. -/
def mapB : NutrientMap := [("B", factB)]

/-- Nutrient facts used for the order-independence instance. -/
def fP5 : NutrientFact := ⟨"Protein", ⟨"g", "mass", 5⟩⟩

/-- A second "Protein" fact, with a different amount. -/
def fP10 : NutrientFact := ⟨"Protein", ⟨"g", "mass", 10⟩⟩

/-- The summary `summarizeRecipe envW recipeW` computes (cost expressions
left unevaluated so the equation holds by unfolding alone). -/
def sW : RecipeSummary := ⟨0 + 2 * 1, [("Fiber", fFiber)]⟩

/-! Basic facts about the `Except` plumbing. -/

theorem except_bind_ok {α β : Type} (a : α) (f : α → Except RecipeError β) :
    (Except.ok a >>= f) = f a := rfl

theorem except_bind_error {α β : Type} (e : RecipeError) (f : α → Except RecipeError β) :
    ((Except.error e : Except RecipeError α) >>= f) = Except.error e := rfl

theorem except_pure_eq {α : Type} (a : α) : (pure a : Except RecipeError α) = Except.ok a := rfl

theorem recipeError_eq (e : RecipeError) : e = RecipeError.noCandidates := by
  cases e
  rfl

/-! The offer scan of `findLowestCostProduct`, linearized and characterized. -/

theorem foldl_offerStep_some (env : Env) (li : RecipeLineItem)
    (l : List (Product × SupplierProduct)) (b : Product × ℚ) :
    l.foldl (offerStep env li) (some b) = some (l.foldl (nextBest env li) b) := by
  induction l generalizing b with
  | nil => rfl
  | cons x l ih =>
      simp only [List.foldl_cons, offerStep]
      exact ih (nextBest env li b x)

theorem foldl_nextBest_min (env : Env) (li : RecipeLineItem)
    (l : List (Product × SupplierProduct)) (b : Product × ℚ) :
    (l.foldl (nextBest env li) b).2 ≤ b.2 ∧
      ∀ x ∈ l, (l.foldl (nextBest env li) b).2 ≤ offerCost env li x := by
  induction l generalizing b with
  | nil => exact ⟨le_refl _, by simp⟩
  | cons x l ih =>
      obtain ⟨h1, h2⟩ := ih (nextBest env li b x)
      have hle : (nextBest env li b x).2 ≤ b.2 := by
        unfold nextBest
        split


        · exact le_of_lt (by assumption)
        · exact le_refl _
      have hx : (nextBest env li b x).2 ≤ offerCost env li x := by
        unfold nextBest
        split
        · exact le_refl _
        · exact le_of_not_lt (by assumption)
      refine ⟨le_trans h1 hle, ?_⟩
      intro y hy
      rcases List.mem_cons.mp hy with rfl | hy
      · exact le_trans h1 hx
      · exact h2 y hy

theorem foldl_nextBest_first (env : Env) (li : RecipeLineItem)
    (l : List (Product × SupplierProduct)) (b : Product × ℚ) :
    (l.foldl (nextBest env li) b = b ∧ ∀ x ∈ l, b.2 ≤ offerCost env li x) ∨
    (∃ l₁ x l₂, l = l₁ ++ x :: l₂ ∧
      l.foldl (nextBest env li) b = (x.1, offerCost env li x) ∧
      offerCost env li x < b.2 ∧
      ∀ y ∈ l₁, (l.foldl (nextBest env li) b).2 < offerCost env li y) := by
  induction l generalizing b with
  | nil => exact Or.inl ⟨rfl, by simp⟩
  | cons x l ih =>
      by_cases hx : offerCost env li x < b.2
      · have hstep : (x :: l).foldl (nextBest env li) b
            = l.foldl (nextBest env li) (x.1, offerCost env li x) := by
          simp [List.foldl_cons, nextBest, hx]
        rcases ih (x.1, offerCost env li x) with ⟨heq, hall⟩ | ⟨l₁, z, l₂, hsplit, heq, hlt, hbefore⟩
        · refine Or.inr ⟨[], x, l, rfl, ?_, hx, by simp⟩
          rw [hstep, heq]
        · refine Or.inr ⟨x :: l₁, z, l₂, by rw [hsplit, List.cons_append], ?_, ?_, ?_⟩
          · rw [hstep, heq]
          · exact lt_trans hlt hx
          · intro y hy
            rcases List.mem_cons.mp hy with rfl | hy
            · rw [hstep, heq]
              exact hlt
            · rw [hstep]
              exact hbefore y hy
      · have hstep : (x :: l).foldl (nextBest env li) b = l.foldl (nextBest env li) b := by
          simp [List.foldl_cons, nextBest, hx]
        rcases ih b with ⟨heq, hall⟩ | ⟨l₁, z, l₂, hsplit, heq, hlt, hbefore⟩
        · refine Or.inl ⟨by rw [hstep, heq], ?_⟩
          intro y hy
          rcases List.mem_cons.mp hy with rfl | hy
          · exact le_of_not_lt hx
          · exact hall y hy
        · refine Or.inr ⟨x :: l₁, z, l₂, by rw [hsplit, List.cons_append], by rw [hstep, heq], hlt, ?_⟩
          intro y hy
          rcases List.mem_cons.mp hy with rfl | hy
          · rw [hstep, heq]
            exact lt_of_lt_of_le hlt (le_of_not_lt hx)
          · rw [hstep]
            exact hbefore y hy

theorem inner_scan_eq (env : Env) (li : RecipeLineItem) (p : Product)
    (sps : List SupplierProduct) (acc : Option (Product × ℚ)) :
    sps.foldl (fun acc' supplierProduct =>
      let baseCost := env.getCostPerBaseUnit supplierProduct
      let realCost := calculateRealCost env li.unitOfMeasure baseCost
      match acc' with
      | none => some (p, realCost)
      | some (q, lowest) =>
          if realCost < lowest then some (p, realCost) else some (q, lowest)) acc
      = (sps.map fun sp => (p, sp)).foldl (offerStep env li) acc := by
  rw [List.foldl_map]
  congr 1
  funext acc' sp
  cases acc' with
  | none => rfl
  | some b =>
      cases b with
      | mk q lowest =>
          simp only [offerStep, nextBest, offerCost]
          split <;> rfl

theorem foldl_offerStep_flatten (env : Env) (li : RecipeLineItem)
    (products : List Product) (acc : Option (Product × ℚ)) :
    products.foldl (fun acc0 product =>
      product.supplierProducts.foldl (fun acc' supplierProduct =>
        let baseCost := env.getCostPerBaseUnit supplierProduct
        let realCost := calculateRealCost env li.unitOfMeasure baseCost
        match acc' with
        | none => some (product, realCost)
        | some (q, lowest) =>
            if realCost < lowest then some (product, realCost) else some (q, lowest)) acc0) acc
      = (offerPairsOf products).foldl (offerStep env li) acc := by
  induction products generalizing acc with
  | nil => rfl
  | cons p ps ih =>
      simp only [List.foldl_cons, offerPairsOf, List.flatMap_cons, List.foldl_append]
      rw [inner_scan_eq env li p p.supplierProducts acc]
      exact ih _

theorem findLowestCostProduct_eq (env : Env) (li : RecipeLineItem) :
    findLowestCostProduct env li =
      match (offerPairs env li).foldl (offerStep env li) none with
      | none => Except.error RecipeError.noCandidates
      | some pc => Except.ok pc := by
  simp only [findLowestCostProduct, offerPairs]
  rw [foldl_offerStep_flatten]

theorem mem_offerPairs (env : Env) (li : RecipeLineItem) (p : Product) (sp : SupplierProduct) :
    (p, sp) ∈ offerPairs env li ↔
      p ∈ env.getProductsForIngredient li.ingredient ∧ sp ∈ p.supplierProducts := by
  simp only [offerPairs, offerPairsOf, List.mem_flatMap, List.mem_map, Prod.mk.injEq]
  constructor
  · rintro ⟨a, ha, sp', hsp', rfl, rfl⟩
    exact ⟨ha, hsp'⟩
  · rintro ⟨hp, hsp⟩
    exact ⟨p, hp, sp, hsp, rfl, rfl⟩

theorem offerPairs_nil_iff (env : Env) (li : RecipeLineItem) :
    offerPairs env li = [] ↔
      ∀ p ∈ env.getProductsForIngredient li.ingredient, p.supplierProducts = [] := by
  rw [List.eq_nil_iff_forall_not_mem]
  constructor
  · intro h p hp
    rw [List.eq_nil_iff_forall_not_mem]
    intro sp hsp
    exact h (p, sp) ((mem_offerPairs env li p sp).mpr ⟨hp, hsp⟩)
  · rintro h ⟨p, sp⟩ hmem
    obtain ⟨hp, hsp⟩ := (mem_offerPairs env li p sp).mp hmem
    rw [h p hp] at hsp
    exact List.not_mem_nil sp hsp

theorem flcp_ok_of_ne_nil (env : Env) (li : RecipeLineItem) (h : offerPairs env li ≠ []) :
    ∃ pc, findLowestCostProduct env li = Except.ok pc ∧
      ∀ x ∈ offerPairs env li, pc.2 ≤ offerCost env li x := by
  rw [findLowestCostProduct_eq]
  cases hop : offerPairs env li with
  | nil => exact absurd hop h
  | cons x rest =>
      refine ⟨rest.foldl (nextBest env li) (x.1, offerCost env li x), ?_, ?_⟩
      · simp only [List.foldl_cons, offerStep, foldl_offerStep_some]
      · obtain ⟨h1, h2⟩ := foldl_nextBest_min env li rest (x.1, offerCost env li x)
        intro y hy
        rcases List.mem_cons.mp hy with rfl | hy
        · exact h1
        · exact h2 y hy

theorem flcp_error_iff (env : Env) (li : RecipeLineItem) :
    findLowestCostProduct env li = Except.error RecipeError.noCandidates ↔
      offerPairs env li = [] := by
  rw [findLowestCostProduct_eq]
  cases hop : offerPairs env li with
  | nil => simp
  | cons x rest =>
      simp only [List.foldl_cons, offerStep, foldl_offerStep_some]
      constructor
      · intro h
        exact absurd h (by simp)
      · intro h
        exact absurd h (by simp)

/-! The line-item loop of `summarizeRecipe`. -/

theorem foldlM_summarize_ok (env : Env) (lis : List RecipeLineItem) :
    ∀ (rs : List (Product × ℚ)) (c : ℚ) (m : NutrientMap),
      lis.mapM (findLowestCostProduct env) = Except.ok rs →
      lis.foldlM (summarizeStep env) (c, m)
        = Except.ok (c + (rs.map Prod.snd).sum,
            rs.foldl (fun m' pc => aggregateNutrients env m' pc.1.nutrientFacts) m) := by
  induction lis with
  | nil =>
      intro rs c m h
      simp only [List.mapM_nil, except_pure_eq, Except.ok.injEq] at h
      subst h
      simp [List.foldlM_nil, except_pure_eq]
  | cons a l ih =>
      intro rs c m h
      rw [List.mapM_cons] at h
      cases hfa : findLowestCostProduct env a with
      | error e =>
          rw [hfa, except_bind_error] at h
          simp at h
      | ok r =>
          rw [hfa, except_bind_ok] at h
          cases hml : l.mapM (findLowestCostProduct env) with
          | error e =>
              rw [hml, except_bind_error] at h
              simp at h
          | ok rs' =>
              rw [hml, except_bind_ok, except_pure_eq, Except.ok.injEq] at h
              subst h
              rw [List.foldlM_cons]
              have hstep : summarizeStep env (c, m) a
                  = Except.ok (c + r.2, aggregateNutrients env m r.1.nutrientFacts) := by
                simp [summarizeStep, hfa, except_bind_ok, except_pure_eq]
              rw [hstep, except_bind_ok,
                ih rs' (c + r.2) (aggregateNutrients env m r.1.nutrientFacts) hml]
              simp [add_assoc]

theorem foldlM_summarize_error (env : Env) (lis : List RecipeLineItem) :
    ∀ (init : ℚ × NutrientMap),
      (∃ li ∈ lis, ∃ e, findLowestCostProduct env li = Except.error e) →
      ∃ e, lis.foldlM (summarizeStep env) init = Except.error e := by
  induction lis with
  | nil =>
      intro init h
      obtain ⟨li, hli, _⟩ := h
      exact absurd hli (List.not_mem_nil li)
  | cons a l ih =>
      intro init h
      rw [List.foldlM_cons]
      cases hfa : findLowestCostProduct env a with
      | error e =>
          refine ⟨e, ?_⟩
          have hstep : summarizeStep env init a = Except.error e := by
            simp [summarizeStep, hfa, except_bind_error]
          rw [hstep, except_bind_error]
      | ok r =>
          obtain ⟨li, hli, e, he⟩ := h
          rcases List.mem_cons.mp hli with rfl | hli
          · rw [hfa] at he
            simp at he
          · have hstep : summarizeStep env init a
                = Except.ok (init.1 + r.2, aggregateNutrients env init.2 r.1.nutrientFacts) := by
              simp [summarizeStep, hfa, except_bind_ok, except_pure_eq]
            rw [hstep, except_bind_ok]
            exact ih _ ⟨li, hli, e, he⟩

/-! The running nutrient map: lookup lemmas and the per-key total. -/

theorem addToEntry_cons (k₀ : String) (v : NutrientFact) (m : NutrientMap) (k : String) (q : ℚ) :
    addToEntry ((k₀, v) :: m) k q
      = (if k₀ = k then (k₀, updAmount q v) else (k₀, v)) :: addToEntry m k q := rfl

theorem findEntry_append (m₁ m₂ : NutrientMap) (k : String) :
    findEntry (m₁ ++ m₂) k = (findEntry m₁ k).or (findEntry m₂ k) := by
  induction m₁ with
  | nil => simp [findEntry]
  | cons kv m₁ ih =>
      cases kv with
      | mk k' v =>
          by_cases h : k' = k
          · simp [findEntry, h]
          · simp [findEntry, h, ih]

theorem findEntry_addToEntry_self (m : NutrientMap) (k : String) (q : ℚ) :
    findEntry (addToEntry m k q) k = (findEntry m k).map (updAmount q) := by
  induction m with
  | nil => rfl
  | cons kv m ih =>
      cases kv with
      | mk k' v =>
          rw [addToEntry_cons]
          by_cases h : k' = k
          · subst h
            rw [if_pos rfl]
            simp [findEntry]
          · rw [if_neg h]
            simp [findEntry, h, ih]

theorem findEntry_addToEntry_ne (m : NutrientMap) (k' k : String) (q : ℚ) (h : k' ≠ k) :
    findEntry (addToEntry m k' q) k = findEntry m k := by
  induction m with
  | nil => rfl
  | cons kv m ih =>
      cases kv with
      | mk k₀ v =>
          rw [addToEntry_cons]
          by_cases h₀ : k₀ = k'
          · subst h₀
            rw [if_pos rfl]
            simp [findEntry, h, ih]
          · rw [if_neg h₀]
            by_cases h₁ : k₀ = k
            · simp [findEntry, h₁]
            · simp [findEntry, h₁, ih]

theorem amountAt_nil (k : String) : amountAt [] k = none := rfl

theorem findEntry_isSome_of_amountAt (m : NutrientMap) (k : String) (a : ℚ)
    (h : amountAt m k = some a) : (findEntry m k).isSome := by
  unfold amountAt at h
  cases hfe : findEntry m k with
  | none =>
      rw [hfe] at h
      simp at h
  | some f => simp

theorem findEntry_eq_none_of_amountAt (m : NutrientMap) (k : String)
    (h : amountAt m k = none) : findEntry m k = none := by
  unfold amountAt at h
  cases hfe : findEntry m k with
  | none => rfl
  | some f =>
      rw [hfe] at h
      simp at h

theorem amountAt_aggregate (env : Env) (l : List NutrientFact) :
    ∀ (m : NutrientMap) (k : String),
      amountAt (aggregateNutrients env m l) k =
        match amountAt m k with
        | some a => some (a + keyAmount env l k)
        | none => if hasKeyFact l k then some (keyAmount env l k) else none := by
  induction l with
  | nil =>
      intro m k
      cases hm : amountAt m k with
      | none => simp [aggregateNutrients, hasKeyFact, hm]
      | some a => simp [aggregateNutrients, keyAmount, hm]
  | cons f l ih =>
      intro m k
      have hagg : aggregateNutrients env m (f :: l)
          = aggregateNutrients env (mergeFact env m f) l := rfl
      rw [hagg, ih]
      by_cases hf : f.nutrientName = k
      · have hkey : keyAmount env (f :: l) k = baseAmount env f + keyAmount env l k := by
          simp [keyAmount, List.filter_cons, hf]
        cases hm : amountAt m k with
        | some a =>
            have hsome : (findEntry m f.nutrientName).isSome := by
              rw [hf]
              exact findEntry_isSome_of_amountAt m k a hm
            have hmerge : amountAt (mergeFact env m f) k = some (a + baseAmount env f) := by
              unfold mergeFact
              rw [if_pos hsome]
              unfold amountAt
              rw [← hf, findEntry_addToEntry_self]
              unfold amountAt at hm
              rw [hf] at *
              cases hfe : findEntry m k with
              | none =>
                  rw [hfe] at hm
                  simp at hm
              | some g =>
                  rw [hfe] at hm
                  simp only [Option.map_some'] at hm ⊢
                  simp only [Option.some.injEq] at hm
                  simp [updAmount, baseAmount, hm]
            rw [hmerge, hkey]
            simp [add_assoc]
        | none =>
            have hnone : findEntry m f.nutrientName = none := by
              rw [hf]
              exact findEntry_eq_none_of_amountAt m k hm
            have hmerge : amountAt (mergeFact env m f) k = some (baseAmount env f) := by
              unfold mergeFact
              rw [if_neg (by simp [hnone])]
              unfold amountAt
              rw [findEntry_append, ← hf, hnone]
              simp [findEntry, baseAmount]
            rw [hmerge]
            have hhk : hasKeyFact (f :: l) k := ⟨f, List.mem_cons_self f l, hf⟩
            show some (baseAmount env f + keyAmount env l k)
              = if hasKeyFact (f :: l) k then some (keyAmount env (f :: l) k) else none
            rw [if_pos hhk, hkey]
      · have hkey : keyAmount env (f :: l) k = keyAmount env l k := by
          simp [keyAmount, List.filter_cons, hf]
        have hhas : hasKeyFact (f :: l) k ↔ hasKeyFact l k := by
          simp [hasKeyFact, hf]
        have hmerge : amountAt (mergeFact env m f) k = amountAt m k := by
          unfold mergeFact
          split
          · unfold amountAt
            rw [findEntry_addToEntry_ne _ _ _ _ hf]
          · unfold amountAt
            rw [findEntry_append]
            simp [findEntry, hf]
        rw [hmerge, hkey]
        cases hm : amountAt m k with
        | some a => rfl
        | none =>
            show (if hasKeyFact l k then some (keyAmount env l k) else none)
              = if hasKeyFact (f :: l) k then some (keyAmount env l k) else none
            exact if_congr hhas.symm rfl rfl

theorem keyAmount_perm (env : Env) {l l' : List NutrientFact} (h : l.Perm l') (k : String) :
    keyAmount env l k = keyAmount env l' k :=
  List.Perm.sum_eq (List.Perm.map _ (List.Perm.filter _ h))

theorem hasKeyFact_perm {l l' : List NutrientFact} (h : l.Perm l') (k : String) :
    hasKeyFact l k ↔ hasKeyFact l' k := by
  constructor
  · rintro ⟨f, hf, hn⟩
    exact ⟨f, h.subset hf, hn⟩
  · rintro ⟨f, hf, hn⟩
    exact ⟨f, h.symm.subset hf, hn⟩

theorem addToEntry_keys (m : NutrientMap) (k : String) (q : ℚ) :
    (addToEntry m k q).map Prod.fst = m.map Prod.fst := by
  unfold addToEntry
  rw [List.map_map]
  apply List.map_congr_left
  intro kv _
  by_cases h : kv.1 = k <;> simp [h]

/-! Key ordering produced by `sortKeys`. -/

theorem findEntry_isSome_iff (m : NutrientMap) (k : String) :
    (findEntry m k).isSome ↔ k ∈ m.map Prod.fst := by
  induction m with
  | nil => simp [findEntry]
  | cons kv m ih =>
      cases kv with
      | mk k' v =>
          by_cases h : k' = k
          · subst h
            simp [findEntry]
          · simp [findEntry, h, ih, Ne.symm h]

theorem objAssign_keys_of_mem (m : NutrientMap) (k : String) (v : NutrientFact)
    (h : (findEntry m k).isSome) :
    (objAssign m k v).map Prod.fst = m.map Prod.fst := by
  unfold objAssign
  rw [if_pos h, List.map_map]
  apply List.map_congr_left
  intro kv _
  by_cases hk : kv.1 = k <;> simp [hk]

theorem objAssign_keys_of_not_mem (m : NutrientMap) (k : String) (v : NutrientFact)
    (h : ¬(findEntry m k).isSome) :
    objAssign m k v = m ++ [(k, v)] := by
  unfold objAssign
  rw [if_neg h]

theorem sorted_rebuild (m : NutrientMap) (ks : List String) :
    ∀ (init : NutrientMap),
      ks.Pairwise (· ≤ ·) →
      (init.map Prod.fst).Pairwise (· ≤ ·) →
      (∀ k₀ ∈ init.map Prod.fst, ∀ k ∈ ks, k₀ ≤ k) →
      ((ks.foldl (rebuildStep m) init).map Prod.fst).Pairwise (· ≤ ·) := by
  induction ks with
  | nil =>
      intro init _ hinit _
      simpa using hinit
  | cons k ks ih =>
      intro init hks hinit hmax
      rw [List.foldl_cons]
      obtain ⟨hk, hks'⟩ := List.pairwise_cons.mp hks
      cases hfm : findEntry m k with
      | none =>
          have hrs : rebuildStep m init k = init := by
            simp [rebuildStep, hfm]
          rw [hrs]
          exact ih init hks' hinit fun k₀ h₀ k' hk' => hmax k₀ h₀ k' (List.mem_cons_of_mem _ hk')
      | some v =>
          have hrs : rebuildStep m init k = objAssign init k v := by
            simp [rebuildStep, hfm]
          rw [hrs]
          by_cases hin : (findEntry init k).isSome
          · apply ih _ hks'
            · rw [objAssign_keys_of_mem init k v hin]
              exact hinit
            · intro k₀ h₀ k' hk'
              rw [objAssign_keys_of_mem init k v hin] at h₀
              exact hmax k₀ h₀ k' (List.mem_cons_of_mem _ hk')
          · rw [objAssign_keys_of_not_mem init k v hin]
            apply ih _ hks'
            · rw [List.map_append, List.pairwise_append]
              refine ⟨hinit, by simp, ?_⟩
              intro a ha b hb
              simp only [List.map_cons, List.map_nil, List.mem_singleton] at hb
              subst hb
              exact hmax a ha b (List.mem_cons_self _ _)
            · intro k₀ h₀ k' hk'
              rw [List.map_append] at h₀
              rcases List.mem_append.mp h₀ with h₀ | h₀
              · exact hmax k₀ h₀ k' (List.mem_cons_of_mem _ hk')
              · simp only [List.map_cons, List.map_nil, List.mem_singleton] at h₀
                subst h₀
                exact hk k' hk'

theorem sorted_sortKeys (m : NutrientMap) :
    ((sortKeys m).map Prod.fst).Pairwise (· ≤ ·) := by
  unfold sortKeys
  apply sorted_rebuild
  · exact List.sorted_insertionSort _ _
  · simp
  · simp

theorem summarizeRecipe_ok_elim (env : Env) (recipe : Recipe) (s : RecipeSummary)
    (h : summarizeRecipe env recipe = Except.ok s) :
    ∃ acc, recipe.lineItems.foldlM (summarizeStep env) (0, ([] : NutrientMap)) = Except.ok acc ∧
      s = ⟨acc.1, sortKeys acc.2⟩ := by
  unfold summarizeRecipe at h
  cases hacc : recipe.lineItems.foldlM (summarizeStep env) (0, ([] : NutrientMap)) with
  | error e =>
      rw [hacc, except_bind_error] at h
      simp at h
  | ok acc =>
      rw [hacc, except_bind_ok, except_pure_eq, Except.ok.injEq] at h
      exact ⟨acc, rfl, h.symm⟩

/-! The claims. -/

/-- C1: `summarizeRecipe` processes `recipe.lineItems` in order starting
from `totalCost = 0`, and returns `cheapestCost` equal to the sum, over
all line items, of the cost returned by the lowest-cost selection for that
line item, merging each winning product's nutrient facts into the running
nutrient map as it goes (left fold over the per-line-item results). -/
theorem claim_C1 (env : Env) (recipe : Recipe) (rs : List (Product × ℚ))
    (h : recipe.lineItems.mapM (findLowestCostProduct env) = Except.ok rs) :
    summarizeRecipe env recipe
      = Except.ok ⟨(rs.map Prod.snd).sum,
          sortKeys (rs.foldl (fun m pc => aggregateNutrients env m pc.1.nutrientFacts) [])⟩ := by
  unfold summarizeRecipe
  rw [foldlM_summarize_ok env recipe.lineItems rs 0 [] h, except_bind_ok, except_pure_eq,
    zero_add]

/-- Witness for C1: a one-line-item recipe with one product and one offer. -/
theorem claim_C1_witness :
    recipeW.lineItems.mapM (findLowestCostProduct envW) = Except.ok [(pW, 2 * 1)] ∧
    summarizeRecipe envW recipeW
      = Except.ok ⟨([((pW, (2 : ℚ) * 1))].map Prod.snd).sum,
          sortKeys ([((pW, (2 : ℚ) * 1))].foldl
            (fun m pc => aggregateNutrients envW m pc.1.nutrientFacts) [])⟩ :=
  ⟨rfl, claim_C1 envW recipeW [(pW, 2 * 1)] rfl⟩

/-- C2: for every line item with at least one supplier offer among its
candidate products, `findLowestCostProduct` returns a cost that is less
than or equal to the normalized real cost of every individual offer
considered. -/
theorem claim_C2 (env : Env) (li : RecipeLineItem) (p₀ : Product) (sp₀ : SupplierProduct)
    (hp : p₀ ∈ env.getProductsForIngredient li.ingredient)
    (hsp : sp₀ ∈ p₀.supplierProducts) :
    ∃ product cost, findLowestCostProduct env li = Except.ok (product, cost) ∧
      ∀ p ∈ env.getProductsForIngredient li.ingredient, ∀ sp ∈ p.supplierProducts,
        cost ≤ calculateRealCost env li.unitOfMeasure (env.getCostPerBaseUnit sp) := by
  have hmem : (p₀, sp₀) ∈ offerPairs env li := (mem_offerPairs env li p₀ sp₀).mpr ⟨hp, hsp⟩
  have hne : offerPairs env li ≠ [] := by
    intro hnil
    rw [hnil] at hmem
    exact List.not_mem_nil _ hmem
  obtain ⟨pc, hok, hmin⟩ := flcp_ok_of_ne_nil env li hne
  refine ⟨pc.1, pc.2, by rw [hok], ?_⟩
  intro p hpmem sp hspmem
  exact hmin (p, sp) ((mem_offerPairs env li p sp).mpr ⟨hpmem, hspmem⟩)

/-- Witness for C2 at the concrete environment `envW`. -/
theorem claim_C2_witness :
    pW ∈ envW.getProductsForIngredient liW.ingredient ∧
    (⟨"supW"⟩ : SupplierProduct) ∈ pW.supplierProducts ∧
    ∃ product cost, findLowestCostProduct envW liW = Except.ok (product, cost) ∧
      ∀ p ∈ envW.getProductsForIngredient liW.ingredient, ∀ sp ∈ p.supplierProducts,
        cost ≤ calculateRealCost envW liW.unitOfMeasure (envW.getCostPerBaseUnit sp) :=
  ⟨by simp [envW, liW], by simp [pW],
    claim_C2 envW liW pW ⟨"supW"⟩ (by simp [envW, liW]) (by simp [pW])⟩

/-- C3: `findLowestCostProduct` fails with the no-candidates error exactly
when the ingredient has zero available products/offers (every candidate
product has an empty offer list, which in particular covers an empty
candidate list), and when any line item fails, the whole summarization
fails with that error and no partial summary is returned. -/
theorem claim_C3 (env : Env) (recipe : Recipe) (li : RecipeLineItem)
    (hmem : li ∈ recipe.lineItems) :
    (findLowestCostProduct env li = Except.error RecipeError.noCandidates ↔
      ∀ p ∈ env.getProductsForIngredient li.ingredient, p.supplierProducts = []) ∧
    (findLowestCostProduct env li = Except.error RecipeError.noCandidates →
      summarizeRecipe env recipe = Except.error RecipeError.noCandidates) := by
  constructor
  · rw [flcp_error_iff]
    exact offerPairs_nil_iff env li
  · intro herr
    obtain ⟨e, he⟩ := foldlM_summarize_error env recipe.lineItems (0, [])
      ⟨li, hmem, RecipeError.noCandidates, herr⟩
    unfold summarizeRecipe
    rw [he, except_bind_error, recipeError_eq e]

/-- Witness for C3: an ingredient with no products aborts the recipe. -/
theorem claim_C3_witness :
    liE ∈ recipeE.lineItems ∧
    findLowestCostProduct envW liE = Except.error RecipeError.noCandidates ∧
    summarizeRecipe envW recipeE = Except.error RecipeError.noCandidates :=
  ⟨List.mem_cons_self _ _, rfl,
    (claim_C3 envW recipeE liE (List.mem_cons_self _ _)).2 rfl⟩

/-- C4, refuted as stated: `aggregateNutrients` keys the lookup and the
insertion by the incoming fact's original `nutrientName`, not by
`baseUnitFact.nutrientName`.  Concretely, with a conversion that renames
"A" to "B" and a running map holding an entry for "B"
(= `baseUnitFact.nutrientName`), the code does not add into that entry
(its amount stays 5) and instead inserts a new entry under "A". -/
theorem claim_C4_counterexample :
    (envR.getNutrientFactInBaseUnits factA).nutrientName = "B" ∧
    (findEntry mapB "B").isSome ∧
    aggregateNutrients envR mapB [factA]
      = [("B", factB), ("A", { factA with nutrientName := "B" })] ∧
    amountAt (aggregateNutrients envR mapB [factA]) "B" = some 5 :=
  ⟨rfl, rfl, rfl, rfl⟩

/-- C4, amended: for every incoming nutrient fact, the merge first converts
it to base units obtaining `baseUnitFact`; if the running totals already
contain an entry for the incoming fact's original `nutrientName`, it adds
`baseUnitFact.quantityAmount.uomAmount` into that entry's amount in place
(no re-conversion, keys unchanged), and otherwise it inserts `baseUnitFact`
as the new entry under the fact's original `nutrientName`. -/
theorem claim_C4_amended (env : Env) (m : NutrientMap) (fact : NutrientFact) :
    ((findEntry m fact.nutrientName).isSome →
      amountAt (mergeFact env m fact) fact.nutrientName
          = (amountAt m fact.nutrientName).map
              (· + (env.getNutrientFactInBaseUnits fact).quantityAmount.uomAmount) ∧
      (mergeFact env m fact).map Prod.fst = m.map Prod.fst) ∧
    (findEntry m fact.nutrientName = none →
      mergeFact env m fact = m ++ [(fact.nutrientName, env.getNutrientFactInBaseUnits fact)]) := by
  constructor
  · intro hsome
    constructor
    · unfold mergeFact
      rw [if_pos hsome]
      unfold amountAt
      rw [findEntry_addToEntry_self]
      cases hfe : findEntry m fact.nutrientName with
      | none =>
          rw [hfe] at hsome
          simp at hsome
      | some g => simp [updAmount]
    · unfold mergeFact
      rw [if_pos hsome]
      exact addToEntry_keys m fact.nutrientName _
  · intro hnone
    unfold mergeFact
    rw [if_neg (by simp [hnone])]

/-- Witness for C4 (amended): merging a fact whose name already has an
entry updates that entry's amount in place. -/
theorem claim_C4_amended_witness :
    (findEntry mapB "B").isSome ∧
    amountAt (mergeFact envR mapB factB) "B"
      = (amountAt mapB "B").map
          (· + (envR.getNutrientFactInBaseUnits factB).quantityAmount.uomAmount) ∧
    (mergeFact envR mapB factB).map Prod.fst = mapB.map Prod.fst :=
  ⟨rfl, ((claim_C4_amended envR mapB factB).1 rfl).1,
    ((claim_C4_amended envR mapB factB).1 rfl).2⟩

/-- C5: nutrient merging is order-independent: merging a permutation of a
list of facts into an empty running total, in any grouping, yields the same
per-name total amounts as merging the original list in one pass. -/
theorem claim_C5 (env : Env) (l l' l₁ l₂ : List NutrientFact) (hp : l.Perm l')
    (hsplit : l' = l₁ ++ l₂) (k : String) :
    amountAt (aggregateNutrients env (aggregateNutrients env [] l₁) l₂) k
      = amountAt (aggregateNutrients env [] l) k := by
  have hgroup : aggregateNutrients env (aggregateNutrients env [] l₁) l₂
      = aggregateNutrients env [] l' := by
    rw [hsplit]
    exact (List.foldl_append (mergeFact env) [] l₁ l₂).symm
  rw [hgroup, amountAt_aggregate env l', amountAt_aggregate env l]
  simp only [amountAt_nil]
  rw [keyAmount_perm env hp k]
  exact if_congr (hasKeyFact_perm hp k).symm rfl rfl

/-- Witness for C5: merging `[P5, B]` then `[P10]` equals merging
`[P10, B, P5]` on the "Protein" total. -/
theorem claim_C5_witness :
    ([fP10, factB, fP5] : List NutrientFact).Perm ([fP5, factB] ++ [fP10]) ∧
    amountAt (aggregateNutrients envW (aggregateNutrients envW [] [fP5, factB]) [fP10]) "Protein"
      = amountAt (aggregateNutrients envW [] [fP10, factB, fP5]) "Protein" :=
  ⟨by decide,
    claim_C5 envW [fP10, factB, fP5] ([fP5, factB] ++ [fP10]) [fP5, factB] [fP10]
      (by decide) rfl "Protein"⟩

/-- C6: for every recipe that summarizes successfully, the keys of the
returned `nutrientsAtCheapestCost` mapping are in ascending lexicographic
order, regardless of insertion order during aggregation. -/
theorem claim_C6 (env : Env) (recipe : Recipe) (s : RecipeSummary)
    (h : summarizeRecipe env recipe = Except.ok s) :
    List.Sorted (· ≤ ·) (s.nutrientsAtCheapestCost.map Prod.fst) := by
  obtain ⟨acc, hacc, hs⟩ := summarizeRecipe_ok_elim env recipe s h
  rw [hs]
  exact sorted_sortKeys acc.2

/-- Witness for C6 at the concrete recipe `recipeW`. -/
theorem claim_C6_witness :
    summarizeRecipe envW recipeW = Except.ok sW ∧
    List.Sorted (· ≤ ·) (sW.nutrientsAtCheapestCost.map Prod.fst) :=
  ⟨rfl, claim_C6 envW recipeW sW rfl⟩

/-- C7: `findLowestCostProduct` tracks the minimum with strict less-than,
so the winning product is the owner of the first offer — products in
catalog order, offers in order within each product — achieving the
minimal real cost: every earlier offer is strictly costlier and every
later offer is at least as costly. -/
theorem claim_C7 (env : Env) (li : RecipeLineItem) (p : Product) (c : ℚ)
    (h : findLowestCostProduct env li = Except.ok (p, c)) :
    ∃ l₁ x l₂, offerPairs env li = l₁ ++ x :: l₂ ∧ x.1 = p ∧ offerCost env li x = c ∧
      (∀ y ∈ l₁, c < offerCost env li y) ∧ ∀ y ∈ l₂, c ≤ offerCost env li y := by
  rw [findLowestCostProduct_eq] at h
  cases hop : offerPairs env li with
  | nil =>
      rw [hop] at h
      simp at h
  | cons x₀ rest =>
      rw [hop, List.foldl_cons] at h
      have hstep : offerStep env li none x₀ = some (x₀.1, offerCost env li x₀) := rfl
      rw [hstep, foldl_offerStep_some] at h
      simp only [Except.ok.injEq] at h
      obtain ⟨hmin1, hmin2⟩ := foldl_nextBest_min env li rest (x₀.1, offerCost env li x₀)
      rcases foldl_nextBest_first env li rest (x₀.1, offerCost env li x₀) with
        ⟨heq, hall⟩ | ⟨l₁, z, l₂, hsplit, heq, hlt, hbefore⟩
      · rw [heq] at h
        refine ⟨[], x₀, rest, by simp, congrArg Prod.fst h, congrArg Prod.snd h, by simp, ?_⟩
        intro y hy
        have hc : offerCost env li x₀ = c := congrArg Prod.snd h
        rw [← hc]
        exact hall y hy
      · rw [heq] at h
        refine ⟨x₀ :: l₁, z, l₂, ?_, congrArg Prod.fst h, congrArg Prod.snd h, ?_, ?_⟩
        · rw [hsplit, List.cons_append]
        · intro y hy
          have hc : offerCost env li z = c := congrArg Prod.snd h
          rcases List.mem_cons.mp hy with rfl | hy
          · rw [← hc]
            exact hlt
          · have := hbefore y hy
            rw [heq] at this
            rw [← hc]
            exact this
        · intro y hy
          have hc : offerCost env li z = c := congrArg Prod.snd h
          have hymem : y ∈ rest := by
            rw [hsplit]
            exact List.mem_append_right _ (List.mem_cons_of_mem _ hy)
          have := hmin2 y hymem
          rw [heq] at this
          rw [← hc]
          exact this

/-- Witness for C7 at the concrete environment `envW`. -/
theorem claim_C7_witness :
    findLowestCostProduct envW liW = Except.ok (pW, 2 * 1) ∧
    (∃ l₁ x l₂, offerPairs envW liW = l₁ ++ x :: l₂ ∧ x.1 = pW ∧
      offerCost envW liW x = 2 * 1 ∧
      (∀ y ∈ l₁, (2 : ℚ) * 1 < offerCost envW liW y) ∧
      ∀ y ∈ l₂, (2 : ℚ) * 1 ≤ offerCost envW liW y) :=
  ⟨rfl, claim_C7 envW liW pW (2 * 1) rfl⟩

/-- C8: `summarizeRecipe` is pure in the embedding (it mutates no input
data), so calling it twice on the same recipe with unchanged backing data
yields an identical summary: equal cost and identical nutrient map. -/
theorem claim_C8 (env : Env) (recipe : Recipe) (s₁ s₂ : RecipeSummary)
    (h₁ : summarizeRecipe env recipe = Except.ok s₁)
    (h₂ : summarizeRecipe env recipe = Except.ok s₂) :
    s₁.cheapestCost = s₂.cheapestCost ∧
      s₁.nutrientsAtCheapestCost = s₂.nutrientsAtCheapestCost := by
  rw [h₁] at h₂
  injection h₂ with h
  subst h
  exact ⟨rfl, rfl⟩

/-- Witness for C8 at the concrete recipe `recipeW`. -/
theorem claim_C8_witness :
    summarizeRecipe envW recipeW = Except.ok sW ∧
    sW.cheapestCost = sW.cheapestCost ∧
      sW.nutrientsAtCheapestCost = sW.nutrientsAtCheapestCost :=
  ⟨rfl, claim_C8 envW recipeW sW sW rfl rfl⟩

/-- C9: for every recipe whose `lineItems` sequence is empty,
`summarizeRecipe` succeeds and returns `cheapestCost = 0` and an empty
nutrient mapping. -/
theorem claim_C9 (env : Env) (name : String) :
    summarizeRecipe env ⟨name, []⟩ = Except.ok ⟨0, []⟩ := rfl

/-- C10: `aggregateNutrients` looks up and inserts each merged entry under
the incoming fact's original (pre-conversion) `nutrientName` while storing
the base-unit-converted fact as the value; consequently, the invariant
that every key of the running map equals the `nutrientName` of the fact
stored under it is preserved for all inputs if and only if the base-unit
conversion helper preserves `nutrientName`. -/
theorem claim_C10 (env : Env) :
    (∀ (m : NutrientMap) (f : NutrientFact), findEntry m f.nutrientName = none →
      aggregateNutrients env m [f]
        = m ++ [(f.nutrientName, env.getNutrientFactInBaseUnits f)]) ∧
    ((∀ (m : NutrientMap) (facts : List NutrientFact), KeysMatch m →
        KeysMatch (aggregateNutrients env m facts)) ↔
      ∀ f : NutrientFact, (env.getNutrientFactInBaseUnits f).nutrientName = f.nutrientName) := by
  constructor
  · intro m f hnone
    show mergeFact env m f = _
    unfold mergeFact
    rw [if_neg (by simp [hnone])]
  · constructor
    · intro hpres f
      have hagg : aggregateNutrients env [] [f]
          = [(f.nutrientName, env.getNutrientFactInBaseUnits f)] := by
        show mergeFact env [] f = _
        unfold mergeFact
        rw [if_neg (by simp [findEntry])]
        simp
      have h := hpres [] [f] fun kv hkv => absurd hkv (List.not_mem_nil kv)
      rw [hagg] at h
      exact h (f.nutrientName, env.getNutrientFactInBaseUnits f) (List.mem_singleton_self _)
    · intro hname m facts
      induction facts generalizing m with
      | nil => exact fun h => h
      | cons f facts ih =>
          intro hm
          show KeysMatch (aggregateNutrients env (mergeFact env m f) facts)
          apply ih
          unfold mergeFact
          by_cases hs : (findEntry m f.nutrientName).isSome
          · rw [if_pos hs]
            intro kv hkv
            unfold addToEntry at hkv
            obtain ⟨kv₀, hkv₀, hmap⟩ := List.mem_map.mp hkv
            rw [← hmap]
            by_cases hk : kv₀.1 = f.nutrientName
            · rw [if_pos hk]
              exact hm kv₀ hkv₀
            · rw [if_neg hk]
              exact hm kv₀ hkv₀
          · rw [if_neg hs]
            intro kv hkv
            rcases List.mem_append.mp hkv with hkv | hkv
            · exact hm kv hkv
            · rw [List.mem_singleton.mp hkv]
              exact hname f

/-- Witness for C10: fresh-name insertion goes under the original name,
and a name-preserving conversion preserves the key invariant. -/
theorem claim_C10_witness :
    aggregateNutrients envW mapB [factA]
        = mapB ++ [("A", envW.getNutrientFactInBaseUnits factA)] ∧
    KeysMatch (aggregateNutrients envW [] [fP5, fFiber]) :=
  ⟨(claim_C10 envW).1 mapB factA rfl,
    (claim_C10 envW).2.mpr (fun _ => rfl) [] [fP5, fFiber]
      fun kv hkv => absurd hkv (List.not_mem_nil kv)⟩

end MenuWise
